import Mathlib

/-!
Verification of the experiment-grid evaluation engine of
`MCS_Activity_Recognition` (src/src/main.py) against its design
specification.  Matrices are lists of rows of natural numbers; labels are
encoded as natural numbers (the label encoding maps raw class identifiers
to dense integer indices).  External learning libraries (sklearn, deslib,
imblearn) are modelled symbolically: the embedding records which
constructor was invoked with which arguments, and prediction functions are
abstract parameters.
-/

/-- A confusion matrix: a list of rows of counts. -/
abbrev Mat : Type := List (List Nat)

/-- Square `k × k` matrix predicate. -/
def SquareCM (k : Nat) (m : Mat) : Prop :=
  m.length = k ∧ ∀ row ∈ m, row.length = k

instance (k : Nat) (m : Mat) : Decidable (SquareCM k m) := by
  unfold SquareCM; infer_instance

/-- Sorted list of the distinct elements of `l` (ascending).  Models the
sorted distinct label index produced by the external confusion-matrix
routine and by pandas `groupby(level=0)`. -/
def sortedDistinct (l : List Nat) : List Nat :=
  (List.range (l.foldr max 0 + 1)).filter (fun x => x ∈ l)

/-- Modelled from the spec: `confusion_matrix_score` lives in the `metrics`
module, which is absent from src/.  Per the spec, the per-fold confusion
matrix is "sized to the number of distinct labels present in the union of
predicted and true labels for that fold"; entry `(i, j)` counts test
examples whose true label is the `i`-th and predicted label the `j`-th
observed label (ascending label order, as sklearn does). -/
def observedLabels (y_test predictions : List Nat) : List Nat :=
  sortedDistinct (y_test ++ predictions)

/-- Modelled from the spec: the confusion-matrix entry layout described in
§4.2, over `observedLabels`. -/
def confusion_matrix_score (y_test predictions : List Nat) : Mat :=
  (observedLabels y_test predictions).map (fun a =>
    (observedLabels y_test predictions).map (fun b =>
      (y_test.zip predictions).countP (fun tp => tp.1 == a && tp.2 == b)))

/-- One row of the pandas zero-initialized frame after
`data.loc[i, columnList] = row` (src/src/main.py:194-197): the fold row is
written into the first `row.length` of the `n` canonical columns, the rest
stay at their zero initialization. -/
def embedRow (n : Nat) (row : List Nat) : List Nat :=
  row ++ List.replicate (n - row.length) 0

/-- The embedding loop of `save_metrics` (src/src/main.py:193-199) for one
fold matrix: a zero `n × n` frame indexed by the canonical class list gets
row `i` of the fold matrix written into its row `i`, columns
`activities_list[:len(row)]` — purely positional.  A row longer than the
canonical class list makes the pandas assignment fail with a length
mismatch (`columnList` has only `n` entries); this is the single failure
mode, modelled as `Except.error`.  Rows never touched by the loop keep
their zeros. -/
def embedCM (n : Nat) (cm : Mat) : Except String Mat :=
  if cm.all (fun row => row.length ≤ n) then
    .ok (cm.map (embedRow n) ++ List.replicate (n - cm.length) (List.replicate n 0))
  else
    .error "cannot set using a list-like indexer with a different length"

/-- Entry access with the frame's zero default. -/
def entry (m : Mat) (i j : Nat) : Nat := (m.getD i []).getD j 0

/-- Sum of all entries of a matrix. -/
def matSum (m : Mat) : Nat := (m.map List.sum).sum

/-- Model of `pd.concat(dfs, axis=0)` (src/src/main.py:202): stack the frames,
keeping each frame's own row index labels (`np.arange(n)`). -/
def concatFrames (dfs : List Mat) : List (Nat × List Nat) :=
  (dfs.map List.enum).flatten

/-- Element-wise sum of two rows (pandas column-wise sum within a group). -/
def addVec (a b : List Nat) : List Nat := List.zipWith (· + ·) a b

/-- Sum of the rows carrying index label `lab` (one group of
`groupby(level=0).sum()`), starting from the all-zero row of width `n`. -/
def groupSum (n : Nat) (rows : List (Nat × List Nat)) (lab : Nat) : List Nat :=
  (rows.filterMap (fun p => if p.1 = lab then some p.2 else none)).foldl
    addVec (List.replicate n 0)

/-- Model of `pd.concat(dfs, axis=0).groupby(level=0).sum()`
(src/src/main.py:202): group the stacked rows by index label, sum each
group column-wise; the resulting frame is indexed by the sorted distinct
labels. -/
def mergedCM (n : Nat) (dfs : List Mat) : Mat :=
  (sortedDistinct ((concatFrames dfs).map Prod.fst)).map
    (groupSum n (concatFrames dfs))

/-- Generation strategies imported in src/src/main.py. -/
inductive GenMethod where
  | BaggingClassifier | AdaBoostClassifier | SGH
deriving DecidableEq, Repr

/-- Selection strategies (plus the fixed-classifier baseline and the
oracle) as enumerated in src/src/main.py. -/
inductive DSMethod where
  | RandomForestClassifier
  | OLA | LCA | MCB | Rank
  | KNORAU | KNORAE | DESKNN | DESP | DESMI | DESClustering | METADES | KNOP
  | Oracle
deriving DecidableEq, Repr

/-- Symbolic trained-model objects built inside `process_selection`
(src/src/main.py:86-122).  `F` is the feature-vector type, `L` the
(numeric) label type, `C` the type of base classifiers delivered by the
generation phase.  Each constructor records exactly the arguments the
source hands to the external library call it mirrors:
`randomForest n X y` is `RandomForestClassifier(n_estimators=n).fit(X, y)`;
`calibratedCV c cv X y` is `CalibratedClassifierCV(base_estimator=c, cv=cv)
.fit(X, y)`; `dsEnsemble X y pool m` is `ds_ensemble(X, y, pool, m)`
(modelled from the spec: `ds_ensemble` lives in the `utils` module, absent
from src/ — per §6 it is `fit(trainFeatures, trainLabels, pool)` for the
selection strategy `m`); `baseClf c` is an untouched pool member. -/
inductive Model (F L C : Type) where
  | baseClf (c : C)
  | randomForest (n_estimators : Nat) (fitX : List F) (fitY : List L)
  | calibratedCV (base : C) (cv : String) (fitX : List F) (fitY : List L)
  | dsEnsemble (fitX : List F) (fitY : List L)
      (pool : List (Model F L C)) (method : DSMethod)
deriving Repr

/-- The argument dictionary handed to `process_selection`
(src/src/main.py:87-95). -/
structure Args (F L C : Type) where
  X_train : List F
  y_train : List L
  X_test : List F
  y_test : List L
  pool_clf : List C
  fold_name : String
  gen_method : GenMethod
  ds_method : DSMethod
  params_rf : Nat

/-- The pool actually handed to the selection strategy
(src/src/main.py:103-116): under SGH generation with METADES or KNOP
selection, every pool member is wrapped in a prefit `CalibratedClassifierCV`
fitted on the fold's own training data; otherwise the pool is used as is.
The rebinding `pool_clf = calibrated_pool` is a fresh list — the original
pool list is never written to. -/
def usedPool {F L C : Type} (args : Args F L C) : List (Model F L C) :=
  if args.gen_method = GenMethod.SGH ∧
      (args.ds_method = DSMethod.METADES ∨ args.ds_method = DSMethod.KNOP) then
    args.pool_clf.map (fun clf =>
      Model.calibratedCV clf "prefit" args.X_train args.y_train)
  else
    args.pool_clf.map Model.baseClf

/-- The ensemble object `process_selection` fits (src/src/main.py:97-116):
a fresh `RandomForestClassifier` parameterized by the per-(dataset, fold)
lookup value for the baseline, a dynamic-selection ensemble over the
(possibly calibrated) pool otherwise. -/
def ensembleOf {F L C : Type} (args : Args F L C) : Model F L C :=
  if args.ds_method = DSMethod.RandomForestClassifier then
    Model.randomForest args.params_rf args.X_train args.y_train
  else
    Model.dsEnsemble args.X_train args.y_train (usedPool args) args.ds_method

/-- The prediction call issued at src/src/main.py:118-122, with the exact
arguments passed: `ensemble.predict(X_test, y_test)` for Oracle,
`ensemble.predict(X_test)` for every other method.  (For the
RandomForestClassifier baseline the predictions computed at line 101 are
overwritten by the identical call at line 122.) -/
inductive PredictCall (F L C : Type) where
  | plain (ensemble : Model F L C) (xTest : List F)
  | withLabels (ensemble : Model F L C) (xTest : List F) (yTest : List L)

/-- Whether a prediction call carries the ground-truth test labels. -/
def PredictCall.hasTestLabels {F L C : Type} : PredictCall F L C → Bool
  | .plain _ _ => false
  | .withLabels _ _ _ => true

def predictCallOf {F L C : Type} (args : Args F L C) : PredictCall F L C :=
  if args.ds_method = DSMethod.Oracle then
    .withLabels (ensembleOf args) args.X_test args.y_test
  else
    .plain (ensembleOf args) args.X_test

/-- An environment of external prediction routines: `predict m x` is
`m.predict(x)`, `predictOracle m x y` is `m.predict(x, y)` (deslib /
sklearn calls, external to the core). -/
structure PredictEnv (F L C : Type) where
  predict : Model F L C → List F → List L
  predictOracle : Model F L C → List F → List L → List L
  /-- Model of `process_metrics` (src/src/main.py:74-83): the per-fold metric
  vector, a composition of external pure metric functions of
  `(y_test, predictions)`; kept abstract. -/
  process_metrics : List L → List L → List Nat

/-- Execute a recorded prediction call against the environment. -/
def runPredict {F L C : Type} (env : PredictEnv F L C) :
    PredictCall F L C → List L
  | .plain m x => env.predict m x
  | .withLabels m x y => env.predictOracle m x y

/-- The `[fold_name, conf_matrix, metrics, predictions]` record returned by
`process_selection` (src/src/main.py:127).  The metric vector is kept
abstract (external pure metric functions, §6). -/
structure FoldResult (L : Type) where
  fold_name : String
  conf_matrix : Mat
  metrics : List Nat
  predictions : List L

/-- Model of `process_selection` (src/src/main.py:86-127) for numeric labels: fit
the branch-selected ensemble, predict with the branch-selected call, and
compute the fold confusion matrix from `y_test` and the predictions. -/
def process_selection {F C : Type} (env : PredictEnv F Nat C)
    (args : Args F Nat C) : FoldResult Nat :=
  let predictions := runPredict env (predictCallOf args)
  { fold_name := args.fold_name
    conf_matrix := confusion_matrix_score args.y_test predictions
    metrics := env.process_metrics args.y_test predictions
    predictions := predictions }

/-- Number of trees for each fold, per dataset (src/src/main.py:52-54),
indexed positionally by (dataset index, fold index). -/
def params : List (List Nat) :=
  [[70, 80, 80, 80, 50, 90], [60, 60, 30, 40, 60, 50],
   [90, 80, 80, 90, 80, 90], [50, 60, 20, 20, 20, 60],
   [100, 80, 90, 90, 90, 80]]

/-- The per-fold parameter bundle built by `experiment_parameters`
(src/src/main.py:130-147), before `experiment_selection` adds the pool and
method fields. -/
structure BaseArgs (F L : Type) where
  X_train : List F
  y_train : List L
  X_test : List F
  y_test : List L

/-- The job dictionary built for fold `f` inside `experiment_selection`
(src/src/main.py:165-172): the base bundle plus pool, fold name
`"Fold_" + str(f + 1)`, selection method, generation method and the
positional hyperparameter lookup `params[iteration][f]` (in-range in the
driver: 5 datasets, 6 folds). -/
def mkJob {F L C : Type} (base : BaseArgs F L) (pc : List C)
    (iteration f : Nat) (gen : GenMethod) (m : DSMethod) : Args F L C :=
  { X_train := base.X_train
    y_train := base.y_train
    X_test := base.X_test
    y_test := base.y_test
    pool_clf := pc
    fold_name := "Fold_" ++ toString (f + 1)
    gen_method := gen
    ds_method := m
    params_rf := (params.getD iteration []).getD f 0 }

/-- Model of `experiment_selection` (src/src/main.py:161-178): pair each fold's
parameter bundle with its classifier pool in fold order, build the job
list, and evaluate the jobs with the builtin sequential
`list(map(process_selection, jobs))` — the `multiprocessing.Pool(5)`
created at line 162 is closed without ever being used, so results come
back in fold order by construction. -/
def experiment_selection {F C : Type} (env : PredictEnv F Nat C)
    (parameters : List (BaseArgs F Nat)) (pool_gen : List (List C))
    (iteration : Nat) (gen_method : GenMethod) (dyn_selector : DSMethod) :
    List (FoldResult Nat) :=
  ((parameters.zip pool_gen).enum).map (fun fp =>
    process_selection env
      (mkJob fp.2.1 fp.2.2 iteration fp.1 gen_method dyn_selector))

/-- Model of `save_metrics` line 186: the fold names, in result order. -/
def save_metrics_folds_name {L : Type} (results : List (FoldResult L)) :
    List String :=
  results.map FoldResult.fold_name

/-- Model of `save_metrics` line 188: `np.concatenate` of the per-fold prediction
arrays, in result order. -/
def save_metrics_predictions {L : Type} (results : List (FoldResult L)) :
    List L :=
  (results.map FoldResult.predictions).flatten

/-- Model of `save_metrics` lines 189-203: embed every fold confusion matrix into
the canonical `n × n` zero frame and merge by `concat` + `groupby` + `sum`.
`n` is the canonical class count (`len(activities_list)`).  Any fold whose
matrix does not fit makes the pandas assignment raise, which aborts
`save_metrics` — modelled by the `Except` propagation of `mapM`. -/
def save_metrics_merged {L : Type} (n : Nat) (results : List (FoldResult L)) :
    Except String Mat := do
  let dfs ← (results.map FoldResult.conf_matrix).mapM (embedCM n)
  pure (mergedCM n dfs)

/-- The argument dictionary consumed by `process_generation`
(src/src/main.py:57-61). -/
structure GenArgs (F L : Type) where
  X_train : List F
  y_train : List L
  gen_method : GenMethod
  imb_method : Option Nat

/-- External routines used by the generation phase.  `balance_dataset` and
`gen_ensemble` live in the `utils` module, absent from src/; modelled from
the spec (§4.1): the imbalance corrector resamples `(X, y)` and "failure
here (e.g., a class with too few examples ...) must be surfaced, not
silently swallowed", hence the `Except`; the generation strategy then
builds the pool from the (possibly resampled) training set, a fresh
Perceptron base template and pool size 100 (src/src/main.py:68-71). -/
structure GenEnv (F L C : Type) where
  balance_dataset : List F → List L → Nat → Except String (List F × List L)
  gen_ensemble : List F → List L → GenMethod → Nat → Except String (List C)

/-- Model of `process_generation` (src/src/main.py:57-71): optionally rebalance the
training set, then generate the pool with `n_estimators = 100`.  The
source wraps neither call in any error handling, so a failure propagates
to the caller. -/
def process_generation {F L C : Type} (env : GenEnv F L C)
    (args : GenArgs F L) : Except String (List C) := do
  let (x, y) ←
    match args.imb_method with
    | some im => env.balance_dataset args.X_train args.y_train im
    | none => pure (args.X_train, args.y_train)
  env.gen_ensemble x y args.gen_method 100

/-- Model of `experiment_generation` (src/src/main.py:150-158):
`list(map(process_generation, generation))`.  A Python `map` runs the
bodies in order and an uncaught exception in any of them aborts the whole
list construction, which is exactly `mapM` over `Except`. -/
def experiment_generation {F L C : Type} (env : GenEnv F L C)
    (parameters : List (BaseArgs F L)) (gen_method : GenMethod)
    (imb_method : Option Nat) : Except String (List (List C)) :=
  parameters.mapM (fun param =>
    process_generation env
      { X_train := param.X_train, y_train := param.y_train,
        gen_method := gen_method, imb_method := imb_method })

/-- A fold as delivered by the Fold Store (src/src/main.py:134-144):
feature matrices plus the per-noise-level training label variants and the
raw test labels.  Raw labels are strings (activity names). -/
structure RawFold (F : Type) where
  xTrain : List F
  yTrains : List (List String)
  xTest : List F
  yTest : List String

/-- Model of `[labels_dict.get(x) for x in y]` (src/src/main.py:138, 144):
Python `dict.get` returns `None` for a missing key instead of raising, so
the resulting array is over `Option Nat`. -/
def encodeLabels (labels_dict : List (String × Nat)) (ys : List String) :
    List (Option Nat) :=
  ys.map (fun x => labels_dict.lookup x)

/-- Model of `experiment_parameters` (src/src/main.py:130-147): one parameter
bundle per fold, with the noise-level training label variant and the test
labels pushed through the `labels_dict.get` encoding. -/
def experiment_parameters {F : Type} (folds : List (RawFold F)) (noise : Nat)
    (labels_dict : List (String × Nat)) : List (BaseArgs F (Option Nat)) :=
  folds.map (fun fold =>
    { X_train := fold.xTrain
      y_train := encodeLabels labels_dict (fold.yTrains.getD noise [])
      X_test := fold.xTest
      y_test := encodeLabels labels_dict fold.yTest })

theorem embedRow_take {n k : Nat} {row : List Nat} (h : row.length = k) :
    (embedRow n row).take k = row := by
  subst h
  simp [embedRow]

theorem embedCM_ok (n : Nat) (cm : Mat)
    (hall : ∀ row ∈ cm, row.length ≤ n) :
    embedCM n cm =
      Except.ok (cm.map (embedRow n) ++
        List.replicate (n - cm.length) (List.replicate n 0)) := by
  have h : cm.all (fun row => decide (row.length ≤ n)) = true := by
    rw [List.all_eq_true]
    exact fun row hr => decide_eq_true (hall row hr)
  simp [embedCM, h]

/-- C1: for every fold confusion matrix of size `k × k` with `k ≤ n`
(`n` the canonical class count), embedding it into the zero-initialized
`n × n` canonical frame and extracting the top-left `k × k` block
reproduces the fold matrix exactly. -/
theorem prefix_embedding_roundtrip (n k : Nat) (cm : Mat)
    (hsq : SquareCM k cm) (hk : k ≤ n) :
    ∃ M, embedCM n cm = Except.ok M ∧
      (M.take k).map (fun row => row.take k) = cm := by
  obtain ⟨hlen, hrows⟩ := hsq
  refine ⟨cm.map (embedRow n) ++
    List.replicate (n - cm.length) (List.replicate n 0), ?_, ?_⟩
  · exact embedCM_ok n cm (fun row hr => (hrows row hr) ▸ hk)
  · have hmlen : (cm.map (embedRow n)).length = k := by simp [hlen]
    rw [List.take_append_of_le_length (le_of_eq hmlen.symm),
      List.take_of_length_le (le_of_eq hmlen), List.map_map]
    calc cm.map ((fun row => row.take k) ∘ embedRow n) = cm.map id := by
          apply List.map_congr_left
          intro row hr
          exact embedRow_take (hrows row hr)
      _ = cm := List.map_id cm

/-- C1 witness: the round trip at the concrete fold matrix
`[[5, 1], [0, 4]]` with canonical class count 3. -/
theorem prefix_embedding_roundtrip_witness :
    ∃ M, embedCM 3 [[5, 1], [0, 4]] = Except.ok M ∧
      (M.take 2).map (fun row => row.take 2) = [[5, 1], [0, 4]] :=
  prefix_embedding_roundtrip 3 2 [[5, 1], [0, 4]] (by decide) (by decide)

theorem le_foldr_max {l : List Nat} {a : Nat} (h : a ∈ l) :
    a ≤ l.foldr max 0 := by
  induction l with
  | nil => cases h
  | cons b l ih =>
    rcases List.mem_cons.mp h with h | h
    · subst h; exact Nat.le_max_left _ _
    · exact le_trans (ih h) (Nat.le_max_right _ _)

theorem foldr_max_le {l : List Nat} {b : Nat} (h : ∀ a ∈ l, a ≤ b) :
    l.foldr max 0 ≤ b := by
  induction l with
  | nil => exact Nat.zero_le b
  | cons c l ih =>
    exact max_le (h c (List.mem_cons_self c l))
      (ih (fun a ha => h a (List.mem_cons_of_mem c ha)))

theorem mem_sortedDistinct {l : List Nat} {x : Nat} :
    x ∈ sortedDistinct l ↔ x ∈ l := by
  unfold sortedDistinct
  rw [List.mem_filter]
  constructor
  · intro h
    exact of_decide_eq_true h.2
  · intro h
    exact ⟨List.mem_range.mpr (Nat.lt_succ_of_le (le_foldr_max h)),
      decide_eq_true h⟩

theorem sortedDistinct_nodup (l : List Nat) : (sortedDistinct l).Nodup :=
  List.Nodup.filter _ (List.nodup_range _)

theorem sortedDistinct_eq_range {l : List Nat} {n : Nat} (hn : 0 < n)
    (h : ∀ x, x ∈ l ↔ x < n) : sortedDistinct l = List.range n := by
  have hmax : l.foldr max 0 = n - 1 := by
    apply Nat.le_antisymm
    · exact foldr_max_le (fun a ha => by have := (h a).mp ha; omega)
    · exact le_foldr_max ((h (n - 1)).mpr (by omega))
  unfold sortedDistinct
  rw [hmax]
  have hr : n - 1 + 1 = n := by omega
  rw [hr]
  exact List.filter_eq_self.mpr
    (fun a ha => decide_eq_true ((h a).mpr (List.mem_range.mp ha)))

theorem getD_replicate_zero {n j : Nat} :
    (List.replicate n (0 : Nat)).getD j 0 = 0 := by
  induction n generalizing j with
  | zero => rfl
  | succ n ih =>
    cases j with
    | zero => rfl
    | succ j => simp only [List.replicate_succ, List.getD_cons_succ, ih]

theorem addVec_getD {a b : List Nat} {j : Nat} (ha : j < a.length)
    (hb : j < b.length) :
    (addVec a b).getD j 0 = a.getD j 0 + b.getD j 0 := by
  have hj : j < (addVec a b).length := by
    simpa [addVec, List.length_zipWith] using ⟨ha, hb⟩
  rw [List.getD_eq_getElem _ _ hj, List.getD_eq_getElem _ _ ha,
    List.getD_eq_getElem _ _ hb]
  exact List.getElem_zipWith

theorem addVec_zero_left {r : List Nat} {n : Nat} (h : r.length = n) :
    addVec (List.replicate n 0) r = r := by
  subst h
  induction r with
  | nil => rfl
  | cons a r ih => simpa [addVec, List.replicate_succ] using ih

theorem addVec_zero_right {r : List Nat} {n : Nat} (h : r.length = n) :
    addVec r (List.replicate n 0) = r := by
  subst h
  induction r with
  | nil => rfl
  | cons a r ih => simpa [addVec, List.replicate_succ] using ih

theorem addVec_assoc (a b c : List Nat) :
    addVec (addVec a b) c = addVec a (addVec b c) := by
  induction a generalizing b c with
  | nil => rfl
  | cons x a ih =>
    cases b with
    | nil => rfl
    | cons y b =>
      cases c with
      | nil => rfl
      | cons z c =>
        have h2 := ih b c
        simp only [addVec, List.zipWith_cons_cons] at h2 ⊢
        rw [h2, Nat.add_assoc]

theorem addVec_length (a b : List Nat) :
    (addVec a b).length = min a.length b.length :=
  List.length_zipWith _ _ _

theorem addVec_sum {a b : List Nat} (h : a.length = b.length) :
    (addVec a b).sum = a.sum + b.sum := by
  induction a generalizing b with
  | nil =>
    cases b with
    | nil => rfl
    | cons y b => simp at h
  | cons x a ih =>
    cases b with
    | nil => simp at h
    | cons y b =>
      have h2 : a.length = b.length := by simpa using h
      have h3 := ih h2
      simp only [addVec, List.zipWith_cons_cons, List.sum_cons] at h3 ⊢
      rw [h3]
      omega

theorem foldl_addVec_hoist (R : List (List Nat)) (a z : List Nat) :
    R.foldl addVec (addVec a z) = addVec a (R.foldl addVec z) := by
  induction R generalizing z with
  | nil => rfl
  | cons r R ih => simpa [List.foldl_cons, addVec_assoc] using ih (addVec z r)

theorem foldl_addVec_length {n : Nat} {R : List (List Nat)} {z : List Nat}
    (hz : z.length = n) (hR : ∀ r ∈ R, r.length = n) :
    (R.foldl addVec z).length = n := by
  induction R generalizing z with
  | nil => exact hz
  | cons r R ih =>
    refine ih ?_ (fun s hs => hR s (List.mem_cons_of_mem r hs))
    rw [addVec_length, hz, hR r (List.mem_cons_self r R)]
    exact Nat.min_self n

theorem filterMap_enumFrom_pick (i : Nat) (d : Mat) (s : Nat) :
    (List.enumFrom s d).filterMap
      (fun p => if p.1 = i then some p.2 else none) =
    if s ≤ i ∧ i < s + d.length then [d.getD (i - s) []] else [] := by
  induction d generalizing s with
  | nil => simp
  | cons a d ih =>
    rw [List.enumFrom_cons, List.filterMap_cons]
    by_cases hsi : s = i
    · subst hsi
      rw [if_pos rfl, ih (s + 1),
        if_neg (by omega : ¬(s + 1 ≤ s ∧ s < s + 1 + d.length)),
        if_pos (by simp : s ≤ s ∧ s < s + (a :: d).length)]
      simp
    · rw [if_neg hsi, ih (s + 1)]
      by_cases h : s + 1 ≤ i ∧ i < s + 1 + d.length
      · rw [if_pos h, if_pos (by simp at h ⊢; omega :
          s ≤ i ∧ i < s + (a :: d).length)]
        have his : i - s = (i - (s + 1)) + 1 := by omega
        rw [his, List.getD_cons_succ]
      · rw [if_neg h, if_neg (by simp at h ⊢; omega :
          ¬(s ≤ i ∧ i < s + (a :: d).length))]

theorem filterMap_enum_pick {i : Nat} (d : Mat) (h : i < d.length) :
    d.enum.filterMap (fun p => if p.1 = i then some p.2 else none) =
      [d.getD i []] := by
  have he : d.enum = List.enumFrom 0 d := rfl
  rw [he, filterMap_enumFrom_pick i d 0,
    if_pos (by omega : 0 ≤ i ∧ i < 0 + d.length)]
  simp

theorem concatFrames_cons (d : Mat) (dfs : List Mat) :
    concatFrames (d :: dfs) = d.enum ++ concatFrames dfs := by
  simp [concatFrames]

theorem groupSum_cons_frame {n i : Nat} {d : Mat} (dfs : List Mat)
    (hi : i < d.length) (hrow : (d.getD i []).length = n) :
    groupSum n (concatFrames (d :: dfs)) i =
      addVec (d.getD i []) (groupSum n (concatFrames dfs) i) := by
  unfold groupSum
  rw [concatFrames_cons, List.filterMap_append, filterMap_enum_pick d hi,
    List.singleton_append, List.foldl_cons,
    addVec_zero_left hrow]
  conv_lhs => rw [← addVec_zero_right hrow (r := d.getD i [])]
  rw [foldl_addVec_hoist]

theorem mem_group_rows {dfs : List Mat} {i : Nat} {r : List Nat}
    (h : r ∈ (concatFrames dfs).filterMap
      (fun p => if p.1 = i then some p.2 else none)) :
    ∃ d ∈ dfs, r ∈ d := by
  obtain ⟨p, hp, hpr⟩ := List.mem_filterMap.mp h
  have hr : p.2 = r := by
    by_cases hc : p.1 = i
    · rw [if_pos hc] at hpr; exact Option.some.inj hpr
    · rw [if_neg hc] at hpr; cases hpr
  obtain ⟨l, hl, hpl⟩ := List.mem_flatten.mp hp
  obtain ⟨d, hd, hde⟩ := List.mem_map.mp hl
  refine ⟨d, hd, ?_⟩
  subst hde hr
  exact List.getElem?_mem (List.mem_enum_iff_getElem?.mp hpl)

theorem groupSum_length {n : Nat} {dfs : List Mat}
    (h : ∀ d ∈ dfs, ∀ r ∈ d, r.length = n) (i : Nat) :
    (groupSum n (concatFrames dfs) i).length = n := by
  unfold groupSum
  refine foldl_addVec_length (List.length_replicate n 0) ?_
  intro r hr
  obtain ⟨d, hd, hrd⟩ := mem_group_rows hr
  exact h d hd r hrd

theorem concatFrames_map_fst (dfs : List Mat) :
    (concatFrames dfs).map Prod.fst =
      (dfs.map (fun d => List.range d.length)).flatten := by
  rw [concatFrames, List.map_flatten, List.map_map]
  congr 1
  exact List.map_congr_left (fun d _ => List.enum_map_fst d)

theorem merged_labels {n : Nat} {dfs : List Mat} (hn : 0 < n)
    (hne : dfs ≠ []) (hlen : ∀ d ∈ dfs, d.length = n) :
    sortedDistinct ((concatFrames dfs).map Prod.fst) = List.range n := by
  apply sortedDistinct_eq_range hn
  intro x
  rw [concatFrames_map_fst]
  constructor
  · intro h
    obtain ⟨l, hl, hxl⟩ := List.mem_flatten.mp h
    obtain ⟨d, hd, hde⟩ := List.mem_map.mp hl
    subst hde
    have := List.mem_range.mp hxl
    rw [hlen d hd] at this
    exact this
  · intro h
    obtain ⟨d, hd⟩ := List.exists_mem_of_ne_nil dfs hne
    refine List.mem_flatten.mpr ⟨List.range d.length, List.mem_map_of_mem _ hd, ?_⟩
    rw [hlen d hd]
    exact List.mem_range.mpr h

theorem entry_mergedCM {n : Nat} {dfs : List Mat}
    (hn : 0 < n) (hlen : ∀ d ∈ dfs, d.length = n) {i j : Nat} (hi : i < n) :
    entry (mergedCM n dfs) i j =
      (groupSum n (concatFrames dfs) i).getD j 0 := by
  cases dfs with
  | nil =>
    show entry [] i j = (List.replicate n (0 : Nat)).getD j 0
    rw [getD_replicate_zero]
    rfl
  | cons d dfs =>
    unfold mergedCM entry
    rw [merged_labels hn (by simp) hlen]
    have hi2 : i < ((List.range n).map
        (groupSum n (concatFrames (d :: dfs)))).length := by simpa using hi
    rw [List.getD_eq_getElem _ _ hi2, List.getElem_map, List.getElem_range]

theorem groupSum_getD_sum {n : Nat} (dfs : List Mat)
    (hsq : ∀ d ∈ dfs, SquareCM n d) {i j : Nat} (hi : i < n) (hj : j < n) :
    (groupSum n (concatFrames dfs) i).getD j 0 =
      (dfs.map (fun d => entry d i j)).sum := by
  induction dfs with
  | nil =>
    show (List.replicate n (0 : Nat)).getD j 0 = 0
    exact getD_replicate_zero
  | cons d dfs ih =>
    have hd := hsq d (List.mem_cons_self d dfs)
    have hdfs : ∀ e ∈ dfs, SquareCM n e :=
      fun e he => hsq e (List.mem_cons_of_mem d he)
    have hid : i < d.length := hd.1 ▸ hi
    have hrow : (d.getD i []).length = n := by
      rw [List.getD_eq_getElem _ _ hid]
      exact hd.2 _ (List.getElem_mem hid)
    have hglen : (groupSum n (concatFrames dfs) i).length = n :=
      groupSum_length (fun e he r hr => (hdfs e he).2 r hr) i
    rw [groupSum_cons_frame dfs hid hrow,
      addVec_getD (by rw [hrow]; exact hj) (by rw [hglen]; exact hj),
      ih hdfs]
    simp [entry]

theorem sum_map_add {α : Type} (l : List α) (f g : α → Nat) :
    (l.map (fun a => f a + g a)).sum = (l.map f).sum + (l.map g).sum := by
  induction l with
  | nil => rfl
  | cons a l ih =>
    simp only [List.map_cons, List.sum_cons, ih]
    omega

theorem range_map_getD (l : Mat) :
    (List.range l.length).map (fun i => l.getD i []) = l := by
  induction l with
  | nil => rfl
  | cons a l ih =>
    rw [List.length_cons, List.range_succ_eq_map, List.map_cons,
      List.getD_cons_zero, List.map_map]
    have h2 : (List.range l.length).map
        ((fun i => (a :: l).getD i []) ∘ Nat.succ) =
        (List.range l.length).map (fun i => l.getD i []) :=
      List.map_congr_left
        (fun x _ => by simp [Function.comp, List.getD_cons_succ])
    rw [h2, ih]

theorem groupSum_sum_eq {n : Nat} (dfs : List Mat)
    (hsq : ∀ d ∈ dfs, SquareCM n d) :
    ((List.range n).map
      (fun i => (groupSum n (concatFrames dfs) i).sum)).sum =
      (dfs.map matSum).sum := by
  induction dfs with
  | nil =>
    have : ∀ i ∈ List.range n,
        (groupSum n (concatFrames ([] : List Mat)) i).sum = 0 := by
      intro i _
      show (List.replicate n (0 : Nat)).sum = 0
      simp
    rw [List.map_congr_left this]
    simp
  | cons d dfs ih =>
    have hd := hsq d (List.mem_cons_self d dfs)
    have hdfs : ∀ e ∈ dfs, SquareCM n e :=
      fun e he => hsq e (List.mem_cons_of_mem d he)
    have hstep : ∀ i ∈ List.range n,
        (groupSum n (concatFrames (d :: dfs)) i).sum =
          (d.getD i []).sum + (groupSum n (concatFrames dfs) i).sum := by
      intro i hir
      have hi : i < n := List.mem_range.mp hir
      have hid : i < d.length := hd.1 ▸ hi
      have hrow : (d.getD i []).length = n := by
        rw [List.getD_eq_getElem _ _ hid]
        exact hd.2 _ (List.getElem_mem hid)
      rw [groupSum_cons_frame dfs hid hrow]
      refine addVec_sum ?_
      rw [hrow]
      exact (groupSum_length (fun e he r hr => (hdfs e he).2 r hr) i).symm
    rw [List.map_congr_left hstep, sum_map_add, ih hdfs, List.map_cons,
      List.sum_cons]
    congr 1
    have h1 : (List.range n).map (fun i => d.getD i []) = d := by
      rw [← hd.1]
      exact range_map_getD d
    have h2 : (List.range n).map (fun i => (d.getD i []).sum) =
        ((List.range n).map (fun i => d.getD i [])).map List.sum := by
      rw [List.map_map]
      exact List.map_congr_left (fun x _ => rfl)
    rw [h2, h1]
    rfl

theorem matSum_mergedCM {n : Nat} (dfs : List Mat) (hn : 0 < n)
    (hsq : ∀ d ∈ dfs, SquareCM n d) :
    matSum (mergedCM n dfs) = (dfs.map matSum).sum := by
  cases dfs with
  | nil => simp [mergedCM, matSum, concatFrames, sortedDistinct]
  | cons d dfs =>
    rw [← groupSum_sum_eq (d :: dfs) hsq]
    unfold mergedCM matSum
    rw [merged_labels hn (by simp) (fun e he => (hsq e he).1), List.map_map]
    rfl

theorem sum_ite_eq_count (a : Nat) (bs : List Nat) :
    (bs.map (fun b => if (a == b) = true then 1 else 0)).sum = bs.count a := by
  induction bs with
  | nil => rfl
  | cons c bs ih =>
    rw [List.map_cons, List.sum_cons, ih, List.count_cons]
    by_cases hac : a = c
    · subst hac
      simp [Nat.add_comm]
    · rw [beq_eq_false_iff_ne.mpr hac,
        beq_eq_false_iff_ne.mpr (Ne.symm hac)]
      simp

theorem sum_countP_partition {α : Type} (l : List α) (bs : List Nat)
    (f : α → Nat) (hnd : bs.Nodup) (hmem : ∀ x ∈ l, f x ∈ bs) :
    (bs.map (fun b => l.countP (fun x => f x == b))).sum = l.length := by
  induction l with
  | nil => simp
  | cons x l ih =>
    have hx : f x ∈ bs := hmem x (List.mem_cons_self x l)
    have hrest : ∀ y ∈ l, f y ∈ bs :=
      fun y hy => hmem y (List.mem_cons_of_mem x hy)
    have hsplit : bs.map (fun b => (x :: l).countP (fun y => f y == b)) =
        bs.map (fun b => l.countP (fun y => f y == b) +
          (if (f x == b) = true then 1 else 0)) :=
      List.map_congr_left (fun b _ => List.countP_cons _ _ _)
    rw [hsplit, sum_map_add, ih hrest, sum_ite_eq_count,
      List.count_eq_one_of_mem hnd hx, List.length_cons]

theorem mem_observedLabels_left {yt yp : List Nat} {x : Nat} (h : x ∈ yt) :
    x ∈ observedLabels yt yp :=
  mem_sortedDistinct.mpr (List.mem_append_left yp h)

theorem mem_observedLabels_right {yt yp : List Nat} {x : Nat} (h : x ∈ yp) :
    x ∈ observedLabels yt yp :=
  mem_sortedDistinct.mpr (List.mem_append_right yt h)

theorem observedLabels_nodup (yt yp : List Nat) :
    (observedLabels yt yp).Nodup :=
  sortedDistinct_nodup _

/-- The total count of a fold confusion matrix is the fold's test-set
size: every `(true, predicted)` pair is counted in exactly one cell. -/
theorem matSum_confusion (yt yp : List Nat) (h : yt.length = yp.length) :
    matSum (confusion_matrix_score yt yp) = yt.length := by
  unfold matSum confusion_matrix_score
  rw [List.map_map]
  have hrow : ∀ a ∈ observedLabels yt yp,
      (List.sum ∘ fun a => (observedLabels yt yp).map
        (fun b => (yt.zip yp).countP (fun tp => tp.1 == a && tp.2 == b))) a =
      (yt.zip yp).countP (fun tp => tp.1 == a) := by
    intro a _
    show ((observedLabels yt yp).map
      (fun b => (yt.zip yp).countP (fun tp => tp.1 == a && tp.2 == b))).sum =
      (yt.zip yp).countP (fun tp => tp.1 == a)
    have hcell : ∀ b ∈ observedLabels yt yp,
        (yt.zip yp).countP (fun tp => tp.1 == a && tp.2 == b) =
        ((yt.zip yp).filter (fun tp => tp.1 == a)).countP
          (fun tp => tp.2 == b) := by
      intro b _
      rw [List.countP_filter]
      apply List.countP_congr
      intro tp _
      simp [Bool.and_comm]
    rw [List.map_congr_left hcell,
      sum_countP_partition _ _ Prod.snd (observedLabels_nodup yt yp) ?_,
      List.countP_eq_length_filter]
    intro tp htp
    have hmem : tp ∈ yt.zip yp := List.mem_of_mem_filter htp
    obtain ⟨t, p⟩ := tp
    exact mem_observedLabels_right (List.of_mem_zip hmem).2
  rw [List.map_congr_left hrow,
    sum_countP_partition _ _ Prod.fst (observedLabels_nodup yt yp) ?_]
  · rw [List.length_zip, h, Nat.min_self]
  · intro tp htp
    obtain ⟨t, p⟩ := tp
    exact mem_observedLabels_left (List.of_mem_zip htp).1

/-- Embedding a fold matrix into the canonical frame does not change its
total count: the added entries are all zero. -/
theorem matSum_embed (n : Nat) (cm : Mat) :
    matSum (cm.map (embedRow n) ++
      List.replicate (n - cm.length) (List.replicate n 0)) = matSum cm := by
  unfold matSum
  rw [List.map_append, List.sum_append, List.map_map]
  have h1 : cm.map (List.sum ∘ embedRow n) = cm.map List.sum :=
    List.map_congr_left (fun row _ => by simp [embedRow])
  have h2 : ((List.replicate (n - cm.length)
      (List.replicate n (0 : Nat))).map List.sum).sum = 0 := by
    simp
  rw [h1, h2]
  omega

theorem embed_square {n k : Nat} {cm : Mat} (hsq : SquareCM k cm)
    (hk : k ≤ n) :
    SquareCM n (cm.map (embedRow n) ++
      List.replicate (n - cm.length) (List.replicate n 0)) := by
  obtain ⟨hlen, hrows⟩ := hsq
  constructor
  · simp [hlen]
    omega
  · intro row hr
    rcases List.mem_append.mp hr with hr | hr
    · obtain ⟨r, hrm, hre⟩ := List.mem_map.mp hr
      have := hrows r hrm
      subst hre
      simp [embedRow, this]
      omega
    · rw [List.eq_of_mem_replicate hr]
      exact List.length_replicate n 0

theorem confusion_square (yt yp : List Nat) :
    SquareCM (observedLabels yt yp).length (confusion_matrix_score yt yp) := by
  constructor
  · simp [confusion_matrix_score]
  · intro row hr
    obtain ⟨a, _, hre⟩ := List.mem_map.mp hr
    subst hre
    simp

theorem mapM_embedCM (n : Nat) (cms : List Mat)
    (h : ∀ cm ∈ cms, ∀ row ∈ cm, row.length ≤ n) :
    cms.mapM (embedCM n) = Except.ok (cms.map (fun cm =>
      cm.map (embedRow n) ++
        List.replicate (n - cm.length) (List.replicate n 0))) := by
  induction cms with
  | nil => rfl
  | cons cm cms ih =>
    rw [List.mapM_cons, embedCM_ok n cm (h cm (List.mem_cons_self cm cms)),
      ih (fun c hc => h c (List.mem_cons_of_mem cm hc))]
    rfl

/-- C2: for every grid cell, the merged confusion matrix equals the
element-wise sum of the per-fold embedded (canonical-shaped) confusion
matrices, and the sum of all entries of the merged matrix equals the total
number of test examples across all folds of the cell.  A fold is given by
its `(y_test, predictions)` pair; `n` is the canonical class count. -/
theorem aggregation_additivity (n : Nat) (folds : List (List Nat × List Nat))
    (hn : 0 < n)
    (hlen : ∀ fd ∈ folds, fd.1.length = fd.2.length)
    (hfit : ∀ fd ∈ folds, (observedLabels fd.1 fd.2).length ≤ n) :
    ∃ dfs : List Mat,
      (folds.map (fun fd => confusion_matrix_score fd.1 fd.2)).mapM
        (embedCM n) = Except.ok dfs ∧
      (∀ i j, i < n → j < n →
        entry (mergedCM n dfs) i j = (dfs.map (fun d => entry d i j)).sum) ∧
      matSum (mergedCM n dfs) = (folds.map (fun fd => fd.1.length)).sum := by
  have hrows : ∀ cm ∈ folds.map (fun fd => confusion_matrix_score fd.1 fd.2),
      ∀ row ∈ cm, row.length ≤ n := by
    intro cm hcm row hrow
    obtain ⟨fd, hfd, hcme⟩ := List.mem_map.mp hcm
    subst hcme
    rw [(confusion_square fd.1 fd.2).2 row hrow]
    exact hfit fd hfd
  refine ⟨(folds.map (fun fd => confusion_matrix_score fd.1 fd.2)).map
    (fun cm => cm.map (embedRow n) ++
      List.replicate (n - cm.length) (List.replicate n 0)), ?_, ?_, ?_⟩
  · exact mapM_embedCM n _ hrows
  all_goals {
    have hsq : ∀ d ∈ (folds.map
        (fun fd => confusion_matrix_score fd.1 fd.2)).map
          (fun cm => cm.map (embedRow n) ++
            List.replicate (n - cm.length) (List.replicate n 0)),
        SquareCM n d := by
      intro d hd
      obtain ⟨cm, hcm, hde⟩ := List.mem_map.mp hd
      obtain ⟨fd, hfd, hcme⟩ := List.mem_map.mp hcm
      subst hde hcme
      exact embed_square (confusion_square fd.1 fd.2) (hfit fd hfd)
    first
    | · intro i j hi hj
        rw [entry_mergedCM hn (fun d hd => (hsq d hd).1) hi,
          groupSum_getD_sum _ hsq hi hj]
    | · rw [matSum_mergedCM _ hn hsq, List.map_map, List.map_map]
        apply congrArg List.sum
        apply List.map_congr_left
        intro fd hfd
        show matSum _ = fd.1.length
        rw [matSum_embed, matSum_confusion fd.1 fd.2 (hlen fd hfd)]
  }

/-- C2 witness: two concrete folds over canonical class count 3, the
first observing only classes `{0, 1}`. -/
theorem aggregation_additivity_witness :
    ∃ dfs : List Mat,
      ([([0, 1], [0, 1]), ([0, 1, 2], [0, 2, 2])].map
        (fun fd => confusion_matrix_score fd.1 fd.2)).mapM
        (embedCM 3) = Except.ok dfs ∧
      (∀ i j, i < 3 → j < 3 →
        entry (mergedCM 3 dfs) i j = (dfs.map (fun d => entry d i j)).sum) ∧
      matSum (mergedCM 3 dfs) =
        ([([0, 1], [0, 1]), ([0, 1, 2], [0, 2, 2])].map
          (fun fd => fd.1.length)).sum :=
  aggregation_additivity 3 [([0, 1], [0, 1]), ([0, 1, 2], [0, 2, 2])]
    (by decide) (by decide) (by decide)

/-- C3: under SGH generation with a probability-dependent selection
strategy (METADES or KNOP), every pool member is independently wrapped in
a `CalibratedClassifierCV` in `"prefit"` mode fitted on the same training
data of the fold, the calibrated pool has the same cardinality as the
original, and only the (possibly calibrated) `usedPool` is handed to the
selection strategy — the embedding is pure and `args.pool_clf` itself is
left untouched, mirroring the source's rebinding of the local name to a
freshly built list. -/
theorem sgh_calibration {F C : Type} (args : Args F Nat C)
    (hgen : args.gen_method = GenMethod.SGH)
    (hm : args.ds_method = DSMethod.METADES ∨
      args.ds_method = DSMethod.KNOP) :
    usedPool args = args.pool_clf.map (fun clf =>
      Model.calibratedCV clf "prefit" args.X_train args.y_train) ∧
    (usedPool args).length = args.pool_clf.length ∧
    ensembleOf args = Model.dsEnsemble args.X_train args.y_train
      (usedPool args) args.ds_method := by
  have hrf : args.ds_method ≠ DSMethod.RandomForestClassifier := by
    rcases hm with hm | hm <;> rw [hm] <;> intro hc <;> cases hc
  refine ⟨?_, ?_, ?_⟩
  · unfold usedPool
    rw [if_pos ⟨hgen, hm⟩]
  · unfold usedPool
    rw [if_pos ⟨hgen, hm⟩, List.length_map]
  · unfold ensembleOf
    rw [if_neg hrf]

/-- Concrete argument bundle exercising the SGH + METADES branch. -/
def sghArgs : Args Nat Nat Nat :=
  { X_train := [1, 2], y_train := [0, 1], X_test := [3], y_test := [0],
    pool_clf := [10, 20], fold_name := "Fold_1",
    gen_method := GenMethod.SGH, ds_method := DSMethod.METADES,
    params_rf := 70 }

/-- C3 witness: the calibration equations at `sghArgs`. -/
theorem sgh_calibration_witness :
    usedPool sghArgs = [Model.calibratedCV 10 "prefit" [1, 2] [0, 1],
      Model.calibratedCV 20 "prefit" [1, 2] [0, 1]] ∧
    (usedPool sghArgs).length = 2 ∧
    ensembleOf sghArgs = Model.dsEnsemble [1, 2] [0, 1] (usedPool sghArgs)
      DSMethod.METADES := by
  have h := sgh_calibration sghArgs rfl (Or.inl rfl)
  exact ⟨h.1, h.2.1, h.2.2⟩

/-- C4: the prediction call receives only the test features, except under
the Oracle strategy, whose call additionally receives the ground-truth
test labels; no non-Oracle strategy is ever passed test labels at
prediction time. -/
theorem oracle_only_sees_test_labels {F L C : Type} (args : Args F L C) :
    (args.ds_method = DSMethod.Oracle →
      predictCallOf args = PredictCall.withLabels (ensembleOf args)
        args.X_test args.y_test) ∧
    (args.ds_method ≠ DSMethod.Oracle →
      predictCallOf args = PredictCall.plain (ensembleOf args)
        args.X_test ∧
      (predictCallOf args).hasTestLabels = false) := by
  constructor
  · intro h
    unfold predictCallOf
    rw [if_pos h]
  · intro h
    unfold predictCallOf
    rw [if_neg h]
    exact ⟨rfl, rfl⟩

/-- Concrete argument bundle for the Oracle strategy. -/
def oracleArgs : Args Nat Nat Nat :=
  { sghArgs with ds_method := DSMethod.Oracle }

/-- Concrete argument bundle for a plain DCS strategy. -/
def olaArgs : Args Nat Nat Nat :=
  { sghArgs with ds_method := DSMethod.OLA }

/-- C4 witness: the Oracle call carries the test labels, the OLA call does
not. -/
theorem oracle_only_sees_test_labels_witness :
    predictCallOf oracleArgs = PredictCall.withLabels (ensembleOf oracleArgs)
      [3] [0] ∧
    predictCallOf olaArgs = PredictCall.plain (ensembleOf olaArgs) [3] ∧
    (predictCallOf olaArgs).hasTestLabels = false :=
  ⟨(oracle_only_sees_test_labels oracleArgs).1 rfl,
    (oracle_only_sees_test_labels olaArgs).2 (by decide)⟩

/-- C6: under the fixed-classifier baseline (`RandomForestClassifier`),
the job built by `experiment_selection` for fold index `f` of dataset
index `iteration` trains a fresh forest whose tree count is the positional
lookup `params[iteration][f]`, predicts directly on the test features, and
the supplied classifier pool is ignored: any two pools yield the same
evaluation result. -/
theorem rf_baseline_ignores_pool {F C : Type} (env : PredictEnv F Nat C)
    (base : BaseArgs F Nat) (pc : List C) (iteration f : Nat)
    (gen : GenMethod) :
    ensembleOf (mkJob base pc iteration f gen
        DSMethod.RandomForestClassifier) =
      Model.randomForest ((params.getD iteration []).getD f 0)
        base.X_train base.y_train ∧
    predictCallOf (mkJob base pc iteration f gen
        DSMethod.RandomForestClassifier) =
      PredictCall.plain (Model.randomForest
        ((params.getD iteration []).getD f 0) base.X_train base.y_train)
        base.X_test ∧
    ∀ pc2 : List C,
      process_selection env (mkJob base pc2 iteration f gen
        DSMethod.RandomForestClassifier) =
      process_selection env (mkJob base pc iteration f gen
        DSMethod.RandomForestClassifier) := by
  have hens : ∀ pc3 : List C,
      ensembleOf (mkJob base pc3 iteration f gen
        DSMethod.RandomForestClassifier) =
      Model.randomForest ((params.getD iteration []).getD f 0)
        base.X_train base.y_train := by
    intro pc3
    unfold ensembleOf mkJob
    rw [if_pos rfl]
  have hcall : ∀ pc3 : List C,
      predictCallOf (mkJob base pc3 iteration f gen
        DSMethod.RandomForestClassifier) =
      PredictCall.plain (Model.randomForest
        ((params.getD iteration []).getD f 0) base.X_train base.y_train)
        base.X_test := by
    intro pc3
    unfold predictCallOf
    rw [if_neg (by intro hc; cases hc), hens pc3]
    rfl
  refine ⟨hens pc, hcall pc, ?_⟩
  intro pc2
  unfold process_selection
  rw [hcall pc2, hcall pc]
  rfl

theorem predictions_length {F C : Type} (env : PredictEnv F Nat C)
    (hp : ∀ e x, (env.predict e x).length = x.length)
    (ho : ∀ e x y, (env.predictOracle e x y).length = x.length)
    (args : Args F Nat C) :
    (process_selection env args).predictions.length = args.X_test.length := by
  show (runPredict env (predictCallOf args)).length = args.X_test.length
  unfold predictCallOf
  by_cases h : args.ds_method = DSMethod.Oracle
  · rw [if_pos h]
    exact ho _ _ _
  · rw [if_neg h]
    exact hp _ _

/-- C5: the concatenated prediction sequence assembled by `save_metrics`
is the fold-order concatenation of the per-fold prediction sequences: its
length is the sum of the per-fold test-set sizes, and the result at
position `f` of `experiment_selection` is exactly the evaluation of fold
`f` (the sequential `map` preserves fold order).  The hypotheses are the
§6 contract that a fitted selector's predictions are aligned to the test
features it receives. -/
theorem prediction_alignment {F C : Type} (env : PredictEnv F Nat C)
    (parameters : List (BaseArgs F Nat)) (pool_gen : List (List C))
    (iteration : Nat) (gen : GenMethod) (m : DSMethod)
    (hp : ∀ e x, (env.predict e x).length = x.length)
    (ho : ∀ e x y, (env.predictOracle e x y).length = x.length) :
    (save_metrics_predictions (experiment_selection env parameters pool_gen
        iteration gen m)).length =
      ((parameters.zip pool_gen).map (fun pr => pr.1.X_test.length)).sum ∧
    ∀ (f : Nat) (hf : f < (experiment_selection env parameters pool_gen
        iteration gen m).length)
      (hf2 : f < (parameters.zip pool_gen).length),
      (experiment_selection env parameters pool_gen iteration gen m).get
          ⟨f, hf⟩ =
        process_selection env
          (mkJob ((parameters.zip pool_gen).get ⟨f, hf2⟩).1
            ((parameters.zip pool_gen).get ⟨f, hf2⟩).2 iteration f gen m) := by
  constructor
  · unfold save_metrics_predictions experiment_selection
    rw [List.length_flatten, List.map_map, List.map_map]
    have hpt : ((parameters.zip pool_gen).enum).map
        ((List.length ∘ FoldResult.predictions) ∘ fun fp =>
          process_selection env (mkJob fp.2.1 fp.2.2 iteration fp.1 gen m)) =
        ((parameters.zip pool_gen).enum).map
          ((fun pr => pr.1.X_test.length) ∘ Prod.snd) := by
      apply List.map_congr_left
      intro fp _
      exact predictions_length env hp ho _
    rw [hpt, ← List.map_map, List.enum_map_snd]
  · intro f hf hf2
    unfold experiment_selection at hf ⊢
    simp only [List.get_eq_getElem, List.getElem_map, List.getElem_enum]

/-- A concrete prediction environment: every model predicts class 0 for
each test instance. -/
def constEnv : PredictEnv Nat Nat Nat :=
  { predict := fun _ x => x.map (fun _ => 0)
    predictOracle := fun _ x _ => x.map (fun _ => 0)
    process_metrics := fun _ _ => [] }

/-- Concrete two-fold parameter bundles. -/
def wParams : List (BaseArgs Nat Nat) :=
  [⟨[1], [0], [5, 6], [0, 1]⟩, ⟨[2], [1], [7], [1]⟩]

/-- Concrete two-fold classifier pools. -/
def wPools : List (List Nat) := [[0], [1]]

/-- C5 witness: alignment at a concrete two-fold cell. -/
theorem prediction_alignment_witness :
    (save_metrics_predictions (experiment_selection constEnv wParams wPools
        0 GenMethod.BaggingClassifier DSMethod.OLA)).length =
      ((wParams.zip wPools).map (fun pr => pr.1.X_test.length)).sum ∧
    ∀ (f : Nat) (hf : f < (experiment_selection constEnv wParams wPools
        0 GenMethod.BaggingClassifier DSMethod.OLA).length)
      (hf2 : f < (wParams.zip wPools).length),
      (experiment_selection constEnv wParams wPools 0
          GenMethod.BaggingClassifier DSMethod.OLA).get ⟨f, hf⟩ =
        process_selection constEnv
          (mkJob ((wParams.zip wPools).get ⟨f, hf2⟩).1
            ((wParams.zip wPools).get ⟨f, hf2⟩).2 0 f
            GenMethod.BaggingClassifier DSMethod.OLA) :=
  prediction_alignment constEnv wParams wPools 0
    GenMethod.BaggingClassifier DSMethod.OLA
    (fun e x => by simp [constEnv]) (fun e x y => by simp [constEnv])

/-- A generation environment in which resampling fails exactly on the
training set `[2]` (a class with too few examples for the technique), and
pool generation itself always succeeds. -/
def failGenEnv : GenEnv Nat Nat Nat :=
  { balance_dataset := fun X y _ =>
      if X = [2] then Except.error "not enough samples in class"
      else Except.ok (X, y)
    gen_ensemble := fun _ _ _ _ => Except.ok [1] }

/-- C7 counterexample: with three folds whose middle fold raises a
resampling error, the whole generation pass aborts with that error — no
per-fold results for the remaining folds are produced, no fold is marked
failed, and there is no degraded partial Result Set, contradicting the
claimed fold-level recovery. -/
theorem fold_error_counterexample :
    experiment_generation failGenEnv
      [⟨[1], [0], [], []⟩, ⟨[2], [0], [], []⟩, ⟨[3], [0], [], []⟩]
      GenMethod.SGH (some 0) =
      Except.error "not enough samples in class" := rfl

/-- C7 amended: a per-fold data error is not recovered at the fold level:
the source wraps neither resampling nor generation in any handler, so the
first failing fold aborts the whole grid cell's generation pass with an
error and no partial result survives. -/
theorem fold_error_aborts_cell {F L C : Type} (env : GenEnv F L C)
    (parameters : List (BaseArgs F L)) (gen : GenMethod) (imb : Option Nat)
    (e : String) (p : BaseArgs F L) (hp : p ∈ parameters)
    (he : process_generation env
      { X_train := p.X_train, y_train := p.y_train,
        gen_method := gen, imb_method := imb } = Except.error e) :
    ∃ e2, experiment_generation env parameters gen imb =
      Except.error e2 := by
  induction parameters with
  | nil => cases hp
  | cons q ps ih =>
    unfold experiment_generation
    rw [List.mapM_cons]
    rcases List.mem_cons.mp hp with hq | hq
    · subst hq
      rw [he]
      exact ⟨e, rfl⟩
    · cases hgen : process_generation env
        { X_train := q.X_train, y_train := q.y_train,
          gen_method := gen, imb_method := imb } with
      | error e3 => exact ⟨e3, rfl⟩
      | ok pool =>
        obtain ⟨e2, he2⟩ := ih hq
        unfold experiment_generation at he2
        refine ⟨e2, ?_⟩
        rw [he2]
        rfl

/-- C7 amended witness: the failing middle fold aborts the cell. -/
theorem fold_error_aborts_cell_witness :
    ∃ e2, experiment_generation failGenEnv
      [⟨[1], [0], [], []⟩, ⟨[2], [1], [], []⟩] GenMethod.BaggingClassifier
      (some 0) = Except.error e2 :=
  fold_error_aborts_cell failGenEnv
    [⟨[1], [0], [], []⟩, ⟨[2], [1], [], []⟩] GenMethod.BaggingClassifier
    (some 0) "not enough samples in class" ⟨[2], [1], [], []⟩
    (List.mem_cons_of_mem _ (List.mem_cons_self _ _)) rfl

/-- C8 counterexample: a fold whose observed labels `{0, 2}` are NOT a
prefix of the canonical ordering `[0, 1, 2]` (they differ from
`range 2 = [0, 1]`) is nevertheless embedded without any error, and its
class-2 counts land in the canonical class-1 row and column — silent
mis-embedding instead of the claimed fatal failure. -/
theorem nonprefix_embedding_counterexample :
    observedLabels [0, 0, 2] [0, 2, 2] = [0, 2] ∧
    observedLabels [0, 0, 2] [0, 2, 2] ≠
      List.range (observedLabels [0, 0, 2] [0, 2, 2]).length ∧
    embedCM 3 (confusion_matrix_score [0, 0, 2] [0, 2, 2]) =
      Except.ok [[1, 1, 0], [0, 1, 0], [0, 0, 0]] :=
  ⟨by decide, by decide, rfl⟩

/-- C8 amended: the embedding loop validates only row width.  A square
fold matrix with more rows than the canonical class count makes the
pandas assignment fail with a length-mismatch error; a fold matrix of
size `k ≤ n` is always embedded positionally into the top-left block with
no error, whatever classes the fold actually observed. -/
theorem aggregation_invariant_check (n k : Nat) (cm : Mat)
    (hsq : SquareCM k cm) :
    (n < k → embedCM n cm = Except.error
      "cannot set using a list-like indexer with a different length") ∧
    (k ≤ n → embedCM n cm = Except.ok (cm.map (embedRow n) ++
      List.replicate (n - cm.length) (List.replicate n 0))) := by
  obtain ⟨hlen, hrows⟩ := hsq
  constructor
  · intro hnk
    have hne : cm ≠ [] := by
      intro hc
      rw [hc] at hlen
      simp at hlen
      omega
    obtain ⟨row, hrow⟩ := List.exists_mem_of_ne_nil cm hne
    have : ¬ cm.all (fun r => decide (r.length ≤ n)) = true := by
      rw [List.all_eq_true]
      intro hall
      have := of_decide_eq_true (hall row hrow)
      rw [hrows row hrow] at this
      omega
    unfold embedCM
    rw [if_neg this]
  · intro hk
    exact embedCM_ok n cm (fun row hr => (hrows row hr) ▸ hk)

/-- C8 amended witness: an oversized 3×3 matrix against canonical count 2
fails, while a 2×2 matrix against canonical count 3 embeds silently. -/
theorem aggregation_invariant_check_witness :
    embedCM 2 [[1, 0, 0], [0, 1, 0], [0, 0, 1]] = Except.error
      "cannot set using a list-like indexer with a different length" ∧
    embedCM 3 [[5, 1], [0, 4]] =
      Except.ok [[5, 1, 0], [0, 4, 0], [0, 0, 0]] :=
  ⟨(aggregation_invariant_check 2 3 [[1, 0, 0], [0, 1, 0], [0, 0, 1]]
      (by decide)).1 (by decide),
    (aggregation_invariant_check 3 2 [[5, 1], [0, 4]] (by decide)).2
      (by decide)⟩

/-- C10: when building the per-fold parameter bundles, each raw label is
encoded through `labels_dict.get`, whose silent default maps any label
absent from the dictionary to `None` without raising, so the numeric
label arrays can contain `None` entries (and keep one entry per raw
label). -/
theorem missing_label_maps_to_none {F : Type} (folds : List (RawFold F))
    (noise : Nat) (labels_dict : List (String × Nat)) (fold : RawFold F)
    (x : String) (hf : fold ∈ folds) (hx : x ∈ fold.yTest)
    (habs : labels_dict.lookup x = none) :
    ∃ a ∈ experiment_parameters folds noise labels_dict,
      a.y_test = fold.yTest.map (fun s => labels_dict.lookup s) ∧
      a.y_test.length = fold.yTest.length ∧
      none ∈ a.y_test := by
  refine ⟨_, List.mem_map_of_mem _ hf, rfl, by
    simp [encodeLabels], ?_⟩
  show none ∈ encodeLabels labels_dict fold.yTest
  unfold encodeLabels
  rw [List.mem_map]
  exact ⟨x, hx, habs⟩

/-- C10 witness: the raw test label `"walk"` is absent from the encoding
dictionary `[("run", 0)]` and is silently encoded as `none`. -/
theorem missing_label_maps_to_none_witness :
    ∃ a ∈ experiment_parameters [(⟨[], [], [], ["walk"]⟩ : RawFold Nat)] 0
        [("run", 0)],
      a.y_test = (["walk"].map (fun s =>
        ([("run", 0)] : List (String × Nat)).lookup s)) ∧
      a.y_test.length = (["walk"] : List String).length ∧
      none ∈ a.y_test :=
  missing_label_maps_to_none [⟨[], [], [], ["walk"]⟩] 0 [("run", 0)]
    ⟨[], [], [], ["walk"]⟩ "walk" (List.mem_cons_self _ _)
    (List.mem_cons_self _ _) rfl
